import Mathlib

/-!
Verification of the condow download orchestrator core.

This file shallowly embeds the parts of the condow Rust crate that the
verified properties talk about:

* the bytes hint type and its operations (src/condow_core/src/streams/mod.rs),
* the chunk stream and its polling and buffer-writing logic
  (src/condow_core/src/streams/chunk_stream.rs),
* the per-part byte accounting of the sequential worker
  (src/condow_core/src/machinery/download/sequential.rs,
  function consume_and_dispatch_bytes),
* the downloader context drop handler of the same file,
* the round-robin enqueue loop of the concurrent dispatcher
  (src/condow_core/src/machinery/download/concurrent.rs).

Machine integers (u64, usize) are modelled as Nat; byte buffers are lists of
naturals.  Asynchronous channels are modelled by the finite list of items the
producers have pushed, consumed in order; drop order of contexts is modelled
by a sequential list of drops.  Timing values (elapsed durations) carried by
observability events are omitted: only the identity of each event matters to
the properties below.
-/

namespace Condow

/-- Bytes hint from src/condow_core/src/streams/mod.rs: a lower bound and an
optional upper bound on the remaining bytes of a stream. -/
structure BytesHint where
  lower : Nat
  upper : Option Nat
deriving DecidableEq, Repr

namespace BytesHint

/-- Constructor new_exact: an exact number of bytes will be returned. -/
def new_exact (bytes : Nat) : BytesHint := ⟨bytes, some bytes⟩

/-- Constructor new_at_max: a hint of min 0 and max bytes. -/
def new_at_max (bytes : Nat) : BytesHint := ⟨0, some bytes⟩

/-- Constructor new_no_hint: no hint at all, (0, None). -/
def new_no_hint : BytesHint := ⟨0, none⟩

/-- Predicate is_exact: the lower bound equals the upper bound. -/
def is_exact (h : BytesHint) : Bool :=
  match h.upper with
  | some upper => upper == h.lower
  | none => false

/-- Returns the exact bytes if the hint is exact, as in the source. -/
def exact (h : BytesHint) : Option Nat :=
  if h.is_exact then h.upper else none

/-- Translation of BytesHint::reduce_by.  The source matches on the four
shapes (0, None), (min, None), (0, Some max), (min, Some max) in that order
and falls back to new_no_hint when a bound would underflow. -/
def reduce_by (h : BytesHint) (n : Nat) : BytesHint :=
  if n = 0 then h
  else
    match h with
    | ⟨0, none⟩ => ⟨0, none⟩
    | ⟨min, none⟩ =>
      if min ≥ n then ⟨min - n, none⟩ else new_no_hint
    | ⟨0, some max⟩ =>
      if max ≥ n then ⟨0, some (max - n)⟩ else new_no_hint
    | ⟨min, some max⟩ =>
      let lower := if min ≥ n then min - n else 0
      let upper := if max ≥ n then some (max - n) else none
      ⟨lower, upper⟩

/-- Translation of BytesHint::combine: lower bounds add, upper bounds add
when both are known and degrade to None otherwise. -/
def combine (h other : BytesHint) : BytesHint :=
  let lower_bound := h.lower + other.lower
  let upper_bound :=
    match h.upper, other.upper with
    | some a, some b => some (a + b)
    | some _, none => none
    | none, some _ => none
    | none, none => none
  ⟨lower_bound, upper_bound⟩

/-- Well-formedness of a bytes hint: whenever the upper bound is known it
dominates the lower bound. -/
def WF (h : BytesHint) : Prop :=
  ∀ u, h.upper = some u → h.lower ≤ u

instance (h : BytesHint) : Decidable h.WF := by
  unfold WF
  cases h.upper with
  | none => exact isTrue (by intro u hu; cases hu)
  | some v =>
    exact decidable_of_iff (h.lower ≤ v)
      ⟨fun hl u hu => by cases hu; exact hl, fun hall => hall v rfl⟩

end BytesHint

/-- The lower bound after reduce_by is the truncated difference. -/
theorem BytesHint.reduce_by_lower (h : BytesHint) (n : Nat) :
    (h.reduce_by n).lower = h.lower - n := by
  obtain ⟨l, u⟩ := h
  by_cases hn : n = 0
  · simp [BytesHint.reduce_by, hn]
  · cases u with
    | none =>
      cases l with
      | zero => simp [BytesHint.reduce_by, hn]
      | succ m =>
        by_cases hge : m + 1 ≥ n
        · simp [BytesHint.reduce_by, hn, hge]
        · simp [BytesHint.reduce_by, BytesHint.new_no_hint, hn, hge] <;> omega
    | some v =>
      cases l with
      | zero =>
        by_cases hge : v ≥ n
        · simp [BytesHint.reduce_by, hn, hge]
        · simp [BytesHint.reduce_by, BytesHint.new_no_hint, hn, hge]
      | succ m =>
        by_cases hge : m + 1 ≥ n
        · simp [BytesHint.reduce_by, hn, hge]
        · simp [BytesHint.reduce_by, hn, hge] <;> omega

/-- A known upper bound is reduced when the amount fits and degrades to
unknown otherwise. -/
theorem BytesHint.reduce_by_upper_some (h : BytesHint) (n u : Nat)
    (hu : h.upper = some u) :
    (h.reduce_by n).upper = if n ≤ u then some (u - n) else none := by
  obtain ⟨l, u'⟩ := h
  cases u' with
  | none => cases hu
  | some v =>
    cases hu
    by_cases hn : n = 0
    · simp [BytesHint.reduce_by, hn]
    · cases l with
      | zero =>
        by_cases hge : u ≥ n
        · simp [BytesHint.reduce_by, hn, hge] <;> omega
        · simp [BytesHint.reduce_by, BytesHint.new_no_hint, hn, hge] <;> omega
      | succ m =>
        by_cases hge : u ≥ n
        · simp [BytesHint.reduce_by, hn, hge] <;> omega
        · simp [BytesHint.reduce_by, hn, hge] <;> omega

/-- An unknown upper bound stays unknown under reduce_by. -/
theorem BytesHint.reduce_by_upper_none (h : BytesHint) (n : Nat)
    (hu : h.upper = none) :
    (h.reduce_by n).upper = none := by
  obtain ⟨l, u'⟩ := h
  cases u' with
  | some v => cases hu
  | none =>
    by_cases hn : n = 0
    · simp [BytesHint.reduce_by, hn]
    · cases l with
      | zero => simp [BytesHint.reduce_by, hn]
      | succ m =>
        by_cases hge : m + 1 ≥ n
        · simp [BytesHint.reduce_by, hn, hge]
        · simp [BytesHint.reduce_by, BytesHint.new_no_hint, hn, hge]

/-- C7: for every bytes hint and every n, reduce_by n saturates: the new
lower bound is the truncated difference lower - n (never below zero), and a
known upper bound u becomes u - n when n fits and degrades to unknown (none)
when n exceeds it. -/
theorem c7_reduce_by_saturates (h : BytesHint) (n : Nat) :
    (h.reduce_by n).lower = h.lower - n ∧
    (∀ u, h.upper = some u →
      (h.reduce_by n).upper = if n ≤ u then some (u - n) else none) :=
  ⟨BytesHint.reduce_by_lower h n, fun u hu => BytesHint.reduce_by_upper_some h n u hu⟩

/-- Witness for C7 at a concrete input: reducing the hint (5, some 3) by 4
saturates the lower bound to 1 and degrades the upper bound to none. -/
theorem c7_reduce_by_saturates_witness :
    ((BytesHint.mk 5 (some 3)).reduce_by 4).lower = 5 - 4 ∧
    ((BytesHint.mk 5 (some 3)).reduce_by 4).upper = none := by
  have h := c7_reduce_by_saturates (BytesHint.mk 5 (some 3)) 4
  refine ⟨h.1, ?_⟩
  have h2 := h.2 3 rfl
  simpa using h2

/-- C10: well-formedness of bytes hints (lower bound at most any known upper
bound) is established by the constructors new_exact, new_at_max and
new_no_hint and preserved by reduce_by with any amount and by combine with
any other well-formed hint. -/
theorem c10_wf_preserved (h other : BytesHint) (n bytes : Nat)
    (hwf : h.WF) (howf : other.WF) :
    (h.reduce_by n).WF ∧ (h.combine other).WF ∧
    (BytesHint.new_exact bytes).WF ∧ (BytesHint.new_at_max bytes).WF ∧
    BytesHint.new_no_hint.WF := by
  refine ⟨?_, ?_, ?_, ?_, ?_⟩
  · intro u hu
    rw [BytesHint.reduce_by_lower h n]
    cases hh : h.upper with
    | none =>
      rw [BytesHint.reduce_by_upper_none h n hh] at hu
      cases hu
    | some v =>
      have hv := BytesHint.reduce_by_upper_some h n v hh
      rw [hu] at hv
      by_cases hnv : n ≤ v
      · rw [if_pos hnv] at hv
        cases hv
        have := hwf v hh
        omega
      · rw [if_neg hnv] at hv
        cases hv
  · intro u hu
    obtain ⟨l1, u1⟩ := h
    obtain ⟨l2, u2⟩ := other
    cases u1 with
    | none => cases u2 with
      | none => cases hu
      | some b => cases hu
    | some a =>
      cases u2 with
      | none => cases hu
      | some b =>
        simp [BytesHint.combine] at hu
        have h1 : l1 ≤ a := hwf a rfl
        have h2 : l2 ≤ b := howf b rfl
        show l1 + l2 ≤ u
        omega
  · intro u hu
    cases hu
    exact le_refl _
  · intro u hu
    cases hu
    exact Nat.zero_le _
  · intro u hu
    cases hu

/-- Witness for C10 at concrete inputs: the hint (2, some 5) reduced by 3 and
combined with (1, some 4) stays well-formed, and the constructors produce
well-formed hints. -/
theorem c10_wf_preserved_witness :
    ((BytesHint.mk 2 (some 5)).reduce_by 3).WF ∧
    ((BytesHint.mk 2 (some 5)).combine (BytesHint.mk 1 (some 4))).WF ∧
    (BytesHint.new_exact 9).WF ∧ (BytesHint.new_at_max 9).WF ∧
    BytesHint.new_no_hint.WF :=
  c10_wf_preserved (BytesHint.mk 2 (some 5)) (BytesHint.mk 1 (some 4)) 3 9
    (by decide) (by decide)

/-- Modelled from the spec: the error type carried by stream items
(src/condow_core/src/errors.rs of the snapshot predates CondowError, whose
definition is not under src; only the constructors new_other and new_io used
by the embedded code are modelled, each carrying its message). -/
inductive CondowError where
  | other (msg : String)
  | io (msg : String)
deriving DecidableEq, Repr

/-- Constructor CondowError::new_other. -/
def CondowError.new_other (msg : String) : CondowError := CondowError.other msg

/-- Constructor CondowError::new_io. -/
def CondowError.new_io (msg : String) : CondowError := CondowError.io msg

/-- IoError from src/condow_core/src/errors.rs: a message-carrying error
yielded by adapter byte streams. -/
structure IoError where
  msg : String
deriving DecidableEq, Repr

/-- Chunk from src/condow_core/src/streams/chunk_stream.rs.  Byte buffers are
lists of naturals. -/
structure Chunk where
  part_index : Nat
  chunk_index : Nat
  blob_offset : Nat
  range_offset : Nat
  bytes : List Nat
  bytes_left : Nat
deriving DecidableEq, Repr

/-- Chunk::len, the number of bytes in the chunk. -/
def Chunk.len (c : Chunk) : Nat := c.bytes.length

deriving instance DecidableEq for Except

/-- The item type of the chunk stream, Result of Chunk and CondowError. -/
abbrev ChunkStreamItem := Except CondowError Chunk

/-- Modelled from the spec: the inclusive byte range [start, end_incl] with
start at most end_incl; its definition (InclusiveRange) is not under src.
Its length is the number of bytes it spans. -/
structure InclusiveRange where
  start : Nat
  end_incl : Nat
deriving DecidableEq, Repr

/-- Modelled from the spec: the length of an inclusive range, the number of
bytes from start to end_incl. -/
def InclusiveRange.len (r : InclusiveRange) : Nat := r.end_incl + 1 - r.start

/-- Modelled from the spec: a part request as produced by the range planner
(part_index, blob_range, range_offset); its definition (RangeRequest in
machinery/range_stream.rs) is not under src. -/
structure RangeRequest where
  part_index : Nat
  blob_range : InclusiveRange
  range_offset : Nat
deriving DecidableEq, Repr

/-- The formatted message of the over-delivery error in
consume_and_dispatch_bytes. -/
def moreBytesMsg (rr : RangeRequest) (bytes_received : Nat) : String :=
  "received more bytes than expected for part " ++ Nat.repr rr.part_index ++
  " (" ++ Nat.repr rr.blob_range.start ++ "..=" ++ Nat.repr rr.blob_range.end_incl ++
  "). expected " ++ Nat.repr rr.blob_range.len ++ ", received " ++ Nat.repr bytes_received

/-- The formatted message of the short-delivery error in
consume_and_dispatch_bytes. -/
def wrongNumberMsg (rr : RangeRequest) (bytes_received : Nat) : String :=
  "received wrong number of bytes for part " ++ Nat.repr rr.part_index ++
  " (" ++ Nat.repr rr.blob_range.start ++ "..=" ++ Nat.repr rr.blob_range.end_incl ++
  "). expected " ++ Nat.repr rr.blob_range.len ++ ", received " ++ Nat.repr bytes_received

/-- The loop body of consume_and_dispatch_bytes from
src/condow_core/src/machinery/download/sequential.rs, with its running state
(chunk_index, offset_in_range, bytes_received) made explicit.  The input list
holds the buffers and errors yielded by the adapter byte stream in order.
The first output component is the sequence of items pushed into the result
channel (the channel is modelled as never disconnected); the second is true
exactly when the function returns Ok, i.e. the part completed.  Probe calls
(part_started, chunk_completed, part_completed, part_failed) and timing are
observability only and are omitted here. -/
def consume_and_dispatch_bytes_go (rr : RangeRequest) (bytes_expected : Nat) :
    List (Except IoError (List Nat)) → Nat → Nat → Nat →
      List ChunkStreamItem × Bool
  | [], _chunk_index, _offset_in_range, bytes_received =>
    if bytes_received ≠ bytes_expected then
      ([Except.error (CondowError.new_other (wrongNumberMsg rr bytes_received))], false)
    else
      ([], true)
  | Except.ok bytes :: rest, chunk_index, offset_in_range, bytes_received =>
    let n_bytes := bytes.length
    let bytes_received' := bytes_received + n_bytes
    if bytes_expected < bytes_received' then
      ([Except.error (CondowError.new_other (moreBytesMsg rr bytes_received'))], false)
    else
      let chunk : Chunk :=
        { part_index := rr.part_index
          chunk_index := chunk_index
          blob_offset := rr.blob_range.start + offset_in_range
          range_offset := rr.range_offset + offset_in_range
          bytes := bytes
          bytes_left := bytes_expected - bytes_received' }
      let out := consume_and_dispatch_bytes_go rr bytes_expected rest
        (chunk_index + 1) (offset_in_range + n_bytes) bytes_received'
      (Except.ok chunk :: out.1, out.2)
  | Except.error e :: _rest, _chunk_index, _offset_in_range, _bytes_received =>
    ([Except.error (CondowError.new_io e.msg)], false)

/-- consume_and_dispatch_bytes: consumes the byte stream of one part request
and dispatches chunks, starting with chunk_index, offset_in_range and
bytes_received all zero; bytes_expected is the declared length of the
requested blob range. -/
def consume_and_dispatch_bytes (rr : RangeRequest)
    (input : List (Except IoError (List Nat))) : List ChunkStreamItem × Bool :=
  consume_and_dispatch_bytes_go rr rr.blob_range.len input 0 0 0

/-- The buffers of the maximal error-free prefix of the adapter stream. -/
def buffersOf : List (Except IoError (List Nat)) → List (List Nat)
  | [] => []
  | Except.ok b :: rest => b :: buffersOf rest
  | Except.error _ :: _ => []

/-- The chunks the loop builds for a list of buffers from a given state,
mirroring the chunk construction in consume_and_dispatch_bytes. -/
def chunksOf (rr : RangeRequest) (bytes_expected : Nat) :
    List (List Nat) → Nat → Nat → Nat → List Chunk
  | [], _chunk_index, _offset_in_range, _bytes_received => []
  | bytes :: rest, chunk_index, offset_in_range, bytes_received =>
    { part_index := rr.part_index
      chunk_index := chunk_index
      blob_offset := rr.blob_range.start + offset_in_range
      range_offset := rr.range_offset + offset_in_range
      bytes := bytes
      bytes_left := bytes_expected - (bytes_received + bytes.length) } ::
    chunksOf rr bytes_expected rest (chunk_index + 1)
      (offset_in_range + bytes.length) (bytes_received + bytes.length)

theorem chunksOf_length (rr : RangeRequest) (L : Nat) :
    ∀ (bufs : List (List Nat)) (ci off rec : Nat),
      (chunksOf rr L bufs ci off rec).length = bufs.length
  | [], _, _, _ => rfl
  | _ :: rest, ci, off, rec => by
    simp [chunksOf, chunksOf_length rr L rest (ci + 1) _ _]

theorem chunksOf_map_chunk_index (rr : RangeRequest) (L : Nat) :
    ∀ (bufs : List (List Nat)) (ci off rec : Nat),
      (chunksOf rr L bufs ci off rec).map Chunk.chunk_index
        = List.range' ci bufs.length
  | [], _, _, _ => rfl
  | b :: rest, ci, off, rec => by
    simp [chunksOf, List.range'_succ,
      chunksOf_map_chunk_index rr L rest (ci + 1) (off + b.length) (rec + b.length)]

theorem chunksOf_map_bytes (rr : RangeRequest) (L : Nat) :
    ∀ (bufs : List (List Nat)) (ci off rec : Nat),
      (chunksOf rr L bufs ci off rec).map Chunk.bytes = bufs
  | [], _, _, _ => rfl
  | b :: rest, ci, off, rec => by
    simp [chunksOf,
      chunksOf_map_bytes rr L rest (ci + 1) (off + b.length) (rec + b.length)]

theorem chunksOf_map_len (rr : RangeRequest) (L : Nat)
    (bufs : List (List Nat)) (ci off rec : Nat) :
    (chunksOf rr L bufs ci off rec).map Chunk.len = bufs.map List.length := by
  have h := chunksOf_map_bytes rr L bufs ci off rec
  calc (chunksOf rr L bufs ci off rec).map Chunk.len
      = ((chunksOf rr L bufs ci off rec).map Chunk.bytes).map List.length := by
        rw [List.map_map]; rfl
    _ = bufs.map List.length := by rw [h]

theorem chunksOf_get_bytes_left (rr : RangeRequest) (L : Nat) :
    ∀ (bufs : List (List Nat)) (ci off rec : Nat),
      rec + (bufs.map List.length).sum ≤ L →
      ∀ i (hi : i < (chunksOf rr L bufs ci off rec).length),
        ((chunksOf rr L bufs ci off rec).get ⟨i, hi⟩).bytes_left
          + (rec + (((bufs.take (i + 1)).map List.length).sum)) = L
  | [], ci, off, rec, _, i, hi => by
    simp [chunksOf] at hi
  | b :: rest, ci, off, rec, htotal, 0, hi => by
    simp [chunksOf]
    simp at htotal
    omega
  | b :: rest, ci, off, rec, htotal, i + 1, hi => by
    have hrec : (rec + b.length) + (rest.map List.length).sum ≤ L := by
      simp at htotal
      omega
    have hi' : i < (chunksOf rr L rest (ci + 1) (off + b.length) (rec + b.length)).length := by
      simpa [chunksOf] using hi
    have ih := chunksOf_get_bytes_left rr L rest (ci + 1) (off + b.length)
      (rec + b.length) hrec i hi'
    simp [chunksOf] at ih ⊢
    omega

theorem consume_go_true_spec (rr : RangeRequest) (L : Nat) :
    ∀ (input : List (Except IoError (List Nat))) (ci off rec : Nat),
      (consume_and_dispatch_bytes_go rr L input ci off rec).2 = true →
      (consume_and_dispatch_bytes_go rr L input ci off rec).1
          = (chunksOf rr L (buffersOf input) ci off rec).map Except.ok
        ∧ rec + ((buffersOf input).map List.length).sum = L
  | [], ci, off, rec, htrue => by
    by_cases hrec : rec = L
    · subst hrec
      simp [consume_and_dispatch_bytes_go, buffersOf, chunksOf]
    · simp [consume_and_dispatch_bytes_go, hrec] at htrue
  | Except.ok b :: rest, ci, off, rec, htrue => by
    by_cases hover : L < rec + b.length
    · simp [consume_and_dispatch_bytes_go, hover] at htrue
    · have htrue' : (consume_and_dispatch_bytes_go rr L rest
          (ci + 1) (off + b.length) (rec + b.length)).2 = true := by
        simpa [consume_and_dispatch_bytes_go, hover] using htrue
      have ih := consume_go_true_spec rr L rest (ci + 1) (off + b.length)
        (rec + b.length) htrue'
      constructor
      · simp [consume_and_dispatch_bytes_go, hover, buffersOf, chunksOf, ih.1]
      · have := ih.2
        simp [buffersOf]
        omega
  | Except.error e :: rest, ci, off, rec, htrue => by
    simp [consume_and_dispatch_bytes_go] at htrue

/-- The prefix of adapter buffers that the worker loop turns into chunks
before it stops: buffers are taken while no error item appears and the
cumulative byte count stays within the declared length. -/
def processedBuffers (L : Nat) : List (Except IoError (List Nat)) → Nat → List (List Nat)
  | [], _rec => []
  | Except.ok b :: rest, rec =>
    if L < rec + b.length then []
    else b :: processedBuffers L rest (rec + b.length)
  | Except.error _ :: _rest, _rec => []

theorem processedBuffers_sum_le (L : Nat) :
    ∀ (input : List (Except IoError (List Nat))) (rec : Nat), rec ≤ L →
      rec + ((processedBuffers L input rec).map List.length).sum ≤ L
  | [], rec, hrec => by
    simp [processedBuffers]
    exact hrec
  | Except.ok b :: rest, rec, hrec => by
    by_cases hb : L < rec + b.length
    · simp [processedBuffers, hb]
      exact hrec
    · have ih := processedBuffers_sum_le L rest (rec + b.length) (by omega)
      simp [processedBuffers, hb]
      omega
  | Except.error e :: rest, rec, hrec => by
    simp [processedBuffers]
    exact hrec

theorem consume_go_decomp (rr : RangeRequest) (L : Nat) :
    ∀ (input : List (Except IoError (List Nat))) (ci off rec : Nat),
      ∃ tail : List ChunkStreamItem,
        (consume_and_dispatch_bytes_go rr L input ci off rec).1
            = (chunksOf rr L (processedBuffers L input rec) ci off rec).map Except.ok
              ++ tail
          ∧ (tail = [] ∨ ∃ e, tail = [Except.error e])
  | [], ci, off, rec => by
    by_cases hrec : rec = L
    · refine ⟨[], ?_, Or.inl rfl⟩
      simp [consume_and_dispatch_bytes_go, hrec, processedBuffers, chunksOf]
    · refine ⟨[Except.error (CondowError.new_other (wrongNumberMsg rr rec))], ?_,
        Or.inr ⟨_, rfl⟩⟩
      simp [consume_and_dispatch_bytes_go, hrec, processedBuffers, chunksOf]
  | Except.ok b :: rest, ci, off, rec => by
    by_cases hb : L < rec + b.length
    · refine ⟨[Except.error (CondowError.new_other (moreBytesMsg rr (rec + b.length)))],
        ?_, Or.inr ⟨_, rfl⟩⟩
      simp [consume_and_dispatch_bytes_go, hb, processedBuffers, chunksOf]
    · obtain ⟨tail, hdec, htail⟩ :=
        consume_go_decomp rr L rest (ci + 1) (off + b.length) (rec + b.length)
      refine ⟨tail, ?_, htail⟩
      simp [consume_and_dispatch_bytes_go, hb, processedBuffers, chunksOf, hdec]
  | Except.error e :: rest, ci, off, rec => by
    refine ⟨[Except.error (CondowError.new_io e.msg)], ?_, Or.inr ⟨_, rfl⟩⟩
    simp [consume_and_dispatch_bytes_go, processedBuffers, chunksOf]

theorem processed_eq_buffers_of_true (rr : RangeRequest) (L : Nat) :
    ∀ (input : List (Except IoError (List Nat))) (ci off rec : Nat),
      (consume_and_dispatch_bytes_go rr L input ci off rec).2 = true →
      processedBuffers L input rec = buffersOf input
  | [], _ci, _off, _rec, _ => rfl
  | Except.ok b :: rest, ci, off, rec, htrue => by
    by_cases hover : L < rec + b.length
    · simp [consume_and_dispatch_bytes_go, hover] at htrue
    · have htrue' : (consume_and_dispatch_bytes_go rr L rest
          (ci + 1) (off + b.length) (rec + b.length)).2 = true := by
        simpa [consume_and_dispatch_bytes_go, hover] using htrue
      simp [processedBuffers, buffersOf, hover,
        processed_eq_buffers_of_true rr L rest (ci + 1) (off + b.length)
          (rec + b.length) htrue']
  | Except.error e :: rest, ci, off, rec, htrue => by
    simp [consume_and_dispatch_bytes_go] at htrue

theorem chunksOf_last_zero_iff (rr : RangeRequest) (L : Nat)
    (bufs : List (List Nat)) (htotal : 0 + (bufs.map List.length).sum = L)
    (hne : ∀ c ∈ chunksOf rr L bufs 0 0 0, c.bytes ≠ [])
    (i : Nat) (hi : i < (chunksOf rr L bufs 0 0 0).length) :
    (((chunksOf rr L bufs 0 0 0).get ⟨i, hi⟩).bytes_left = 0
      ↔ i + 1 = (chunksOf rr L bufs 0 0 0).length) := by
  have hbl := chunksOf_get_bytes_left rr L bufs 0 0 0 (by omega) i hi
  have hlen := chunksOf_length rr L bufs 0 0 0
  rw [List.map_take] at hbl
  have hsplit := List.sum_take_add_sum_drop (bufs.map List.length) (i + 1)
  have hlen2 : (bufs.map List.length).length = bufs.length := by simp
  have hpos : ∀ x ∈ (bufs.map List.length).drop (i + 1), 0 < x := by
    intro x hx
    have hx' : x ∈ bufs.map List.length := List.drop_subset _ _ hx
    obtain ⟨bb, hbmem, hbx⟩ := List.mem_map.mp hx'
    have : bb ∈ (chunksOf rr L bufs 0 0 0).map Chunk.bytes := by
      rw [chunksOf_map_bytes]; exact hbmem
    obtain ⟨c, hcmem, hcb⟩ := List.mem_map.mp this
    have hcne := hne c hcmem
    rw [hcb] at hcne
    cases hbx
    cases bb with
    | nil => exact absurd rfl hcne
    | cons y ys => simp
  constructor
  · intro hzero
    by_contra hne'
    have hlt : i + 1 < bufs.length := by omega
    have hdropne : (bufs.map List.length).drop (i + 1) ≠ [] := by
      intro hd
      have := List.drop_eq_nil_iff.mp hd
      omega
    have hdsum : (((bufs.map List.length).drop (i + 1))).sum = 0 := by omega
    cases hd : (bufs.map List.length).drop (i + 1) with
    | nil => exact hdropne hd
    | cons z zs =>
      have hzmem : z ∈ (bufs.map List.length).drop (i + 1) := by rw [hd]; simp
      have hzp := hpos z hzmem
      have hzsum : z + zs.sum = 0 := by
        have : ((z :: zs : List Nat)).sum = 0 := by rw [← hd]; exact hdsum
        simpa using this
      omega
  · intro hlast
    have hdrop : (bufs.map List.length).drop (i + 1) = [] := by
      apply List.drop_eq_nil_iff.mpr
      omega
    rw [hdrop] at hsplit
    simp at hsplit
    omega

/-- C1 (amended): for every part request with declared length L that the
worker loop processes, on every path (completed or aborted) the items it
sends into the result channel are a list of chunks followed by at most one
error item: the chunks carry chunk_index values 0, 1, 2, ... in order, and
each carries bytes_left equal to L minus the cumulative bytes emitted for
the part including the current chunk, the cumulative count never exceeding
L.  When the loop completes the part (returns Ok), additionally no error is
sent, the chunk byte lengths sum to L, and, provided every buffer yielded by
the adapter stream is non-empty, a chunk has bytes_left zero exactly when it
is the last chunk of the part.  (Without the non-emptiness proviso the
uniqueness of the bytes_left zero chunk fails, see the counterexample.) -/
theorem c1_part_chunk_invariants (rr : RangeRequest)
    (input : List (Except IoError (List Nat))) :
    ∃ (chunks : List Chunk) (tail : List ChunkStreamItem),
      (consume_and_dispatch_bytes rr input).1 = chunks.map Except.ok ++ tail ∧
      (tail = [] ∨ ∃ e, tail = [Except.error e]) ∧
      chunks.map Chunk.chunk_index = List.range chunks.length ∧
      (∀ i (hi : i < chunks.length),
        (chunks.get ⟨i, hi⟩).bytes_left
            = rr.blob_range.len - ((chunks.take (i + 1)).map Chunk.len).sum ∧
          ((chunks.take (i + 1)).map Chunk.len).sum ≤ rr.blob_range.len) ∧
      ((consume_and_dispatch_bytes rr input).2 = true →
        tail = [] ∧
        (chunks.map Chunk.len).sum = rr.blob_range.len ∧
        ((∀ c ∈ chunks, c.bytes ≠ []) →
          ∀ i (hi : i < chunks.length),
            ((chunks.get ⟨i, hi⟩).bytes_left = 0 ↔ i + 1 = chunks.length))) := by
  set L := rr.blob_range.len with hL
  obtain ⟨tail, hdecomp, htail⟩ := consume_go_decomp rr L input 0 0 0
  set bufs := processedBuffers L input 0 with hbufs
  refine ⟨chunksOf rr L bufs 0 0 0, tail, hdecomp, htail, ?_, ?_, ?_⟩
  · rw [chunksOf_map_chunk_index, chunksOf_length, List.range_eq_range']
  · intro i hi
    have hsle : 0 + (bufs.map List.length).sum ≤ L := by
      have h := processedBuffers_sum_le L input 0 (Nat.zero_le L)
      simpa [hbufs] using h
    have hbl := chunksOf_get_bytes_left rr L bufs 0 0 0 hsle i hi
    have htake : ((chunksOf rr L bufs 0 0 0).take (i + 1)).map Chunk.len
        = (bufs.take (i + 1)).map List.length := by
      rw [List.map_take, chunksOf_map_len, ← List.map_take]
    rw [htake]
    omega
  · intro hok
    have hproc : bufs = buffersOf input := by
      rw [hbufs]
      exact processed_eq_buffers_of_true rr L input 0 0 0 hok
    obtain ⟨hitems, htotal⟩ := consume_go_true_spec rr L input 0 0 0 hok
    have htail0 : tail = [] := by
      have h1 : (chunksOf rr L bufs 0 0 0).map Except.ok ++ tail
          = (chunksOf rr L bufs 0 0 0).map Except.ok := by
        rw [← hdecomp, hitems, hproc]
      cases tail with
      | nil => rfl
      | cons t ts =>
        have h2 := congrArg List.length h1
        simp at h2
    refine ⟨htail0, ?_, ?_⟩
    · rw [hproc, chunksOf_map_len]
      simpa using htotal
    · rw [hproc]
      intro hne i hi
      exact chunksOf_last_zero_iff rr L (buffersOf input)
        (by simpa using htotal) hne i hi

/-- Witness for C1 at a concrete input: a part of length 3 delivered in two
buffers satisfies the decomposition and per-chunk invariants, and the
completion-only conjuncts since it completes. -/
theorem c1_part_chunk_invariants_witness :
    ∃ (chunks : List Chunk) (tail : List ChunkStreamItem),
      (consume_and_dispatch_bytes
          (RangeRequest.mk 0 (InclusiveRange.mk 10 12) 0)
          [Except.ok [1, 2], Except.ok [3]]).1 = chunks.map Except.ok ++ tail ∧
      (tail = [] ∨ ∃ e, tail = [Except.error e]) ∧
      chunks.map Chunk.chunk_index = List.range chunks.length ∧
      (∀ i (hi : i < chunks.length),
        (chunks.get ⟨i, hi⟩).bytes_left
            = (InclusiveRange.mk 10 12).len - ((chunks.take (i + 1)).map Chunk.len).sum ∧
          ((chunks.take (i + 1)).map Chunk.len).sum ≤ (InclusiveRange.mk 10 12).len) ∧
      ((consume_and_dispatch_bytes
          (RangeRequest.mk 0 (InclusiveRange.mk 10 12) 0)
          [Except.ok [1, 2], Except.ok [3]]).2 = true →
        tail = [] ∧
        (chunks.map Chunk.len).sum = (InclusiveRange.mk 10 12).len ∧
        ((∀ c ∈ chunks, c.bytes ≠ []) →
          ∀ i (hi : i < chunks.length),
            ((chunks.get ⟨i, hi⟩).bytes_left = 0 ↔ i + 1 = chunks.length))) :=
  c1_part_chunk_invariants (RangeRequest.mk 0 (InclusiveRange.mk 10 12) 0)
    [Except.ok [1, 2], Except.ok [3]]

/-- Counterexample for C1 as stated: if the adapter stream yields an empty
buffer after the part is already complete, the worker still emits a chunk for
it, the part completes (the loop returns Ok), and two chunks carry bytes_left
zero, so the chunk with bytes_left zero is not unique and a non-last chunk
has bytes_left zero. -/
theorem c1_counterexample :
    (consume_and_dispatch_bytes
        (RangeRequest.mk 0 (InclusiveRange.mk 0 0) 0)
        [Except.ok [7], Except.ok []]).2 = true ∧
    (consume_and_dispatch_bytes
        (RangeRequest.mk 0 (InclusiveRange.mk 0 0) 0)
        [Except.ok [7], Except.ok []]).1
      = [Except.ok (Chunk.mk 0 0 0 0 [7] 0), Except.ok (Chunk.mk 0 1 1 1 [] 0)] := by
  constructor
  · rfl
  · rfl

/-- The number of buffers in the maximal prefix whose cumulative length
stays within the declared part length, starting from bytes already
received. -/
def excessPoint (L : Nat) : List (List Nat) → Nat → Nat
  | [], _rec => 0
  | b :: rest, rec =>
    if L < rec + b.length then 0 else excessPoint L rest (rec + b.length) + 1

theorem consume_go_over_spec (rr : RangeRequest) (L : Nat) :
    ∀ (bufs : List (List Nat)) (ci off rec : Nat),
      rec ≤ L → L < rec + (bufs.map List.length).sum →
      consume_and_dispatch_bytes_go rr L (bufs.map Except.ok) ci off rec
        = ((chunksOf rr L (bufs.take (excessPoint L bufs rec)) ci off rec).map Except.ok
            ++ [Except.error (CondowError.new_other (moreBytesMsg rr
                  (rec + (((bufs.take (excessPoint L bufs rec + 1)).map List.length).sum))))],
           false)
  | [], ci, off, rec, hrec, hover => by
    simp at hover
    omega
  | b :: rest, ci, off, rec, hrec, hover => by
    by_cases hb : L < rec + b.length
    · have hexc : excessPoint L (b :: rest) rec = 0 := by
        simp [excessPoint, hb]
      rw [hexc]
      simp [consume_and_dispatch_bytes_go, hb, chunksOf]
    · have hexc : excessPoint L (b :: rest) rec
          = excessPoint L rest (rec + b.length) + 1 := by
        simp [excessPoint, hb]
      have hover' : L < (rec + b.length) + (rest.map List.length).sum := by
        simp at hover
        omega
      have ih := consume_go_over_spec rr L rest (ci + 1) (off + b.length)
        (rec + b.length) (by omega) hover'
      rw [hexc]
      simp only [List.map_cons, consume_and_dispatch_bytes_go, List.take_succ_cons,
        chunksOf]
      rw [if_neg (by omega)]
      simp only [ih]
      simp
      rw [Nat.add_assoc]

theorem consume_go_under_spec (rr : RangeRequest) (L : Nat) :
    ∀ (bufs : List (List Nat)) (ci off rec : Nat),
      rec + (bufs.map List.length).sum < L →
      consume_and_dispatch_bytes_go rr L (bufs.map Except.ok) ci off rec
        = ((chunksOf rr L bufs ci off rec).map Except.ok
            ++ [Except.error (CondowError.new_other (wrongNumberMsg rr
                  (rec + (bufs.map List.length).sum)))],
           false)
  | [], ci, off, rec, hunder => by
    simp at hunder
    have : rec ≠ L := by omega
    simp [consume_and_dispatch_bytes_go, this, chunksOf]
  | b :: rest, ci, off, rec, hunder => by
    have hrb : ¬ L < rec + b.length := by
      simp at hunder
      omega
    have hunder' : (rec + b.length) + (rest.map List.length).sum < L := by
      simp at hunder
      omega
    have ih := consume_go_under_spec rr L rest (ci + 1) (off + b.length)
      (rec + b.length) hunder'
    simp only [List.map_cons, consume_and_dispatch_bytes_go, chunksOf]
    rw [if_neg (by omega)]
    simp only [ih]
    simp
    rw [Nat.add_assoc]

/-- C4: over- and short-delivery by the adapter byte stream are each turned
into exactly one terminal error by the worker loop.  If the stream (an
error-free list of buffers) delivers more bytes in total than the declared
part length, the loop forwards exactly the chunks of the maximal prefix that
stays within the declared length, then pushes the single error whose message
is the formatted received-more-bytes-than-expected message (the chunk whose
buffer crossed the limit is not forwarded) and returns Err, processing
nothing further; if the stream ends before the declared length is reached,
the loop forwards all chunks and pushes the single formatted
received-wrong-number-of-bytes error and returns Err.  Neither path retries:
the loop terminates with Err immediately. -/
theorem c4_worker_aborts_on_byte_mismatch (rr : RangeRequest)
    (bufs : List (List Nat)) :
    (rr.blob_range.len < (bufs.map List.length).sum →
      consume_and_dispatch_bytes rr (bufs.map Except.ok)
        = ((chunksOf rr rr.blob_range.len
              (bufs.take (excessPoint rr.blob_range.len bufs 0)) 0 0 0).map Except.ok
            ++ [Except.error (CondowError.new_other (moreBytesMsg rr
                  (((bufs.take (excessPoint rr.blob_range.len bufs 0 + 1)).map
                      List.length).sum)))],
           false)) ∧
    ((bufs.map List.length).sum < rr.blob_range.len →
      consume_and_dispatch_bytes rr (bufs.map Except.ok)
        = ((chunksOf rr rr.blob_range.len bufs 0 0 0).map Except.ok
            ++ [Except.error (CondowError.new_other (wrongNumberMsg rr
                  ((bufs.map List.length).sum)))],
           false)) := by
  constructor
  · intro hover
    have h := consume_go_over_spec rr rr.blob_range.len bufs 0 0 0
      (Nat.zero_le _) (by omega)
    simpa [consume_and_dispatch_bytes] using h
  · intro hunder
    have h := consume_go_under_spec rr rr.blob_range.len bufs 0 0 0 (by omega)
    simpa [consume_and_dispatch_bytes] using h

/-- Witness for C4 at concrete inputs: a part of declared length 2 receiving
3 bytes aborts with the over-delivery error and no chunk, and receiving only
1 byte forwards that chunk and aborts with the short-delivery error. -/
theorem c4_worker_aborts_on_byte_mismatch_witness :
    (consume_and_dispatch_bytes (RangeRequest.mk 0 (InclusiveRange.mk 0 1) 0)
        ([[5, 6, 7]].map Except.ok)
      = ((chunksOf (RangeRequest.mk 0 (InclusiveRange.mk 0 1) 0) 2
            ([[5, 6, 7]].take (excessPoint 2 [[5, 6, 7]] 0)) 0 0 0).map Except.ok
          ++ [Except.error (CondowError.new_other (moreBytesMsg
                (RangeRequest.mk 0 (InclusiveRange.mk 0 1) 0)
                ((([[5, 6, 7]].take (excessPoint 2 [[5, 6, 7]] 0 + 1)).map
                    List.length).sum)))],
         false)) ∧
    (consume_and_dispatch_bytes (RangeRequest.mk 0 (InclusiveRange.mk 0 1) 0)
        ([[5]].map Except.ok)
      = ((chunksOf (RangeRequest.mk 0 (InclusiveRange.mk 0 1) 0) 2 [[5]] 0 0 0).map
            Except.ok
          ++ [Except.error (CondowError.new_other (wrongNumberMsg
                (RangeRequest.mk 0 (InclusiveRange.mk 0 1) 0)
                (([[5]].map List.length).sum)))],
         false)) :=
  ⟨(c4_worker_aborts_on_byte_mismatch (RangeRequest.mk 0 (InclusiveRange.mk 0 1) 0)
      [[5, 6, 7]]).1 (by decide),
   (c4_worker_aborts_on_byte_mismatch (RangeRequest.mk 0 (InclusiveRange.mk 0 1) 0)
      [[5]]).2 (by decide)⟩

/-- ChunkStream from src/condow_core/src/streams/chunk_stream.rs.  The
receiver side of the unbounded result channel is modelled by the list of
items the producers have pushed, in insertion order, with the producer side
already finished, so a poll never has to wait. -/
structure ChunkStream where
  bytes_hint : BytesHint
  queue : List ChunkStreamItem
  is_closed : Bool
  is_fresh : Bool
deriving DecidableEq

/-- ChunkStream::new paired with a channel holding the given items. -/
def ChunkStream.new (bytes_hint : BytesHint) (queue : List ChunkStreamItem) :
    ChunkStream :=
  { bytes_hint := bytes_hint, queue := queue, is_closed := false, is_fresh := true }

/-- ChunkStream::empty: an already closed stream with exact-zero hint. -/
def ChunkStream.empty : ChunkStream :=
  { bytes_hint := ⟨0, some 0⟩, queue := [], is_closed := true, is_fresh := true }

/-- Translation of the Stream::poll_next implementation for ChunkStream: a
closed stream yields end of stream immediately (before touching is_fresh);
otherwise is_fresh is cleared and the next channel item is examined: a chunk
reduces the hint by its length, an error closes the stream and clamps the
hint to exact zero, and an exhausted channel closes the stream. -/
def ChunkStream.poll_next (s : ChunkStream) : ChunkStream × Option ChunkStreamItem :=
  if s.is_closed then (s, none)
  else
    match s.queue with
    | [] => ({ s with is_fresh := false, is_closed := true }, none)
    | Except.ok chunk :: rest =>
      ({ s with is_fresh := false, queue := rest, bytes_hint := s.bytes_hint.reduce_by chunk.len },
        some (Except.ok chunk))
    | Except.error err :: rest =>
      ({ s with is_fresh := false, queue := rest, is_closed := true, bytes_hint := BytesHint.new_exact 0 },
        some (Except.error err))

/-- The stream state after k polls. -/
def ChunkStream.pollState (s : ChunkStream) : Nat → ChunkStream
  | 0 => s
  | k + 1 => (s.poll_next).1.pollState k

/-- The outputs of k successive polls. -/
def ChunkStream.polls (s : ChunkStream) : Nat → List (Option ChunkStreamItem)
  | 0 => []
  | k + 1 => (s.poll_next).2 :: (s.poll_next).1.polls k

theorem ChunkStream.poll_next_closed (s : ChunkStream) (h : s.is_closed = true) :
    s.poll_next = (s, none) := by
  simp [ChunkStream.poll_next, h]

theorem ChunkStream.poll_next_preserves_closed (s : ChunkStream)
    (h : s.is_closed = true) : (s.poll_next).1.is_closed = true := by
  rw [ChunkStream.poll_next_closed s h]
  exact h

theorem ChunkStream.poll_next_error_closes (s : ChunkStream) (e : CondowError)
    (h : (s.poll_next).2 = some (Except.error e)) :
    (s.poll_next).1.is_closed = true ∧
    (s.poll_next).1.bytes_hint = BytesHint.new_exact 0 := by
  by_cases hc : s.is_closed = true
  · rw [ChunkStream.poll_next_closed s hc] at h
    cases h
  · have hc' : s.is_closed = false := by
      cases hcc : s.is_closed
      · rfl
      · exact absurd hcc hc
    cases hq : s.queue with
    | nil => simp [ChunkStream.poll_next, hc', hq] at h ⊢
    | cons item rest =>
      cases item with
      | ok chunk => simp [ChunkStream.poll_next, hc', hq] at h
      | error err => simp [ChunkStream.poll_next, hc', hq] at h ⊢

theorem ChunkStream.pollState_succ_back (s : ChunkStream) :
    ∀ k, s.pollState (k + 1) = ((s.pollState k).poll_next).1 := by
  intro k
  induction k generalizing s with
  | zero => rfl
  | succ m ih =>
    show ((s.poll_next).1.pollState (m + 1)) = _
    rw [ih (s.poll_next).1]
    rfl

theorem ChunkStream.pollState_closed_mono (s : ChunkStream) (i : Nat)
    (h : (s.pollState i).is_closed = true) :
    ∀ j, i ≤ j → (s.pollState j).is_closed = true := by
  intro j hij
  induction j with
  | zero =>
    have : i = 0 := Nat.le_zero.mp hij
    rw [this] at h
    exact h
  | succ m ih =>
    by_cases him : i ≤ m
    · have hm := ih him
      rw [ChunkStream.pollState_succ_back]
      exact ChunkStream.poll_next_preserves_closed _ hm
    · have : i = m + 1 := by omega
      rw [this] at h
      exact h

theorem ChunkStream.polls_getD (s : ChunkStream) :
    ∀ (k j : Nat), j < k →
      (s.polls k).getD j none = ((s.pollState j).poll_next).2 := by
  intro k
  induction k generalizing s with
  | zero => intro j hj; omega
  | succ m ih =>
    intro j hj
    cases j with
    | zero => rfl
    | succ i =>
      show ((s.poll_next).1.polls m).getD i none = _
      rw [ih (s.poll_next).1 i (by omega)]
      rfl

/-- C3: on a chunk stream, once a poll yields an error item, the stream is
closed and the bytes hint is clamped to exact zero, and every later poll
returns end of stream; hence over any poll trace at most one error item is
delivered and no chunk is ever emitted after an error. -/
theorem c3_error_closes_stream (s : ChunkStream) (k i j : Nat) (e : CondowError)
    (hik : i < k) (hjk : j < k) (hij : i < j)
    (herr : (s.polls k).getD i none = some (Except.error e)) :
    (s.pollState (i + 1)).is_closed = true ∧
    (s.pollState (i + 1)).bytes_hint = BytesHint.new_exact 0 ∧
    (s.polls k).getD j none = none := by
  rw [ChunkStream.polls_getD s k i hik] at herr
  obtain ⟨hclosed, hhint⟩ := ChunkStream.poll_next_error_closes _ e herr
  rw [← ChunkStream.pollState_succ_back] at hclosed hhint
  refine ⟨hclosed, hhint, ?_⟩
  rw [ChunkStream.polls_getD s k j hjk]
  have hjclosed : (s.pollState j).is_closed = true :=
    ChunkStream.pollState_closed_mono s (i + 1) hclosed j (by omega)
  rw [ChunkStream.poll_next_closed _ hjclosed]

/-- Witness for C3 at a concrete input: a stream whose channel holds one
error item; the first poll yields the error, the state is closed with
exact-zero hint, and the second poll yields end of stream. -/
theorem c3_error_closes_stream_witness :
    ((ChunkStream.new (BytesHint.mk 5 none)
        [Except.error (CondowError.other "boom")]).pollState 1).is_closed = true ∧
    ((ChunkStream.new (BytesHint.mk 5 none)
        [Except.error (CondowError.other "boom")]).pollState 1).bytes_hint
      = BytesHint.new_exact 0 ∧
    ((ChunkStream.new (BytesHint.mk 5 none)
        [Except.error (CondowError.other "boom")]).polls 2).getD 1 none = none :=
  c3_error_closes_stream
    (ChunkStream.new (BytesHint.mk 5 none) [Except.error (CondowError.other "boom")])
    2 0 1 (CondowError.other "boom") (by decide) (by decide) (by decide) (by decide)

/-- Splices bytes into the buffer at the given offset, the list counterpart
of the slice assignment in ChunkStream::write_buffer. -/
def writeInto (buffer : List Nat) (off : Nat) (bytes : List Nat) : List Nat :=
  buffer.take off ++ bytes ++ buffer.drop (off + bytes.length)

/-- The formatted message of the beyond-buffer-end error in write_buffer. -/
def beyondEndMsg (buffer_len end_excl : Nat) : String :=
  "write attempt beyond buffer end (buffer len = " ++ Nat.repr buffer_len ++
  "). attempted to write at index " ++ Nat.repr end_excl

/-- The formatted message of the undersized-buffer error in write_buffer. -/
def bufferTooSmallMsg (buffer_len lower : Nat) : String :=
  "buffer to small (" ++ Nat.repr buffer_len ++ "). at least " ++
  Nat.repr lower ++ " bytes required"

/-- The consuming loop of ChunkStream::write_buffer: each chunk is written at
its range_offset after a bound check, the written byte count accumulates, and
an error item aborts with that error. -/
def write_buffer_loop :
    List ChunkStreamItem → List Nat → Nat → Except CondowError (List Nat × Nat)
  | [], buffer, bytes_written => Except.ok (buffer, bytes_written)
  | Except.error err :: _rest, _buffer, _bytes_written => Except.error err
  | Except.ok chunk :: rest, buffer, bytes_written =>
    let end_excl := chunk.range_offset + chunk.bytes.length
    if buffer.length < end_excl then
      Except.error (CondowError.new_other (beyondEndMsg buffer.length end_excl))
    else
      write_buffer_loop rest (writeInto buffer chunk.range_offset chunk.bytes)
        (bytes_written + chunk.bytes.length)

/-- ChunkStream::write_buffer: refuses a non-fresh stream, validates the
buffer against the lower hint bound, then runs the consuming loop. -/
def ChunkStream.write_buffer (s : ChunkStream) (buffer : List Nat) :
    Except CondowError (List Nat × Nat) :=
  if !s.is_fresh then
    Except.error (CondowError.new_other "stream already iterated")
  else if buffer.length < s.bytes_hint.lower then
    Except.error (CondowError.new_other
      (bufferTooSmallMsg buffer.length s.bytes_hint.lower))
  else
    write_buffer_loop s.queue buffer 0

/-- The growing loop of stream_into_vec_with_unknown_size: the vector is
zero-extended up to each chunk's exclusive end before the chunk is written. -/
def into_vec_loop : List ChunkStreamItem → List Nat → Except CondowError (List Nat)
  | [], buffer => Except.ok buffer
  | Except.error err :: _rest, _buffer => Except.error err
  | Except.ok chunk :: rest, buffer =>
    let end_excl := chunk.range_offset + chunk.bytes.length
    let buffer :=
      if buffer.length ≤ end_excl then
        buffer ++ List.replicate (end_excl - buffer.length) 0
      else buffer
    into_vec_loop rest (writeInto buffer chunk.range_offset chunk.bytes)

/-- stream_into_vec_with_unknown_size: refuses a non-fresh stream, then runs
the growing loop starting from an empty vector. -/
def stream_into_vec_with_unknown_size (s : ChunkStream) :
    Except CondowError (List Nat) :=
  if !s.is_fresh then
    Except.error (CondowError.new_other "stream already iterated")
  else
    into_vec_loop s.queue []

/-- ChunkStream::into_vec: with an exact hint a pre-sized zeroed buffer is
filled through write_buffer, otherwise the stream is collected with the
growing loop. -/
def ChunkStream.into_vec (s : ChunkStream) : Except CondowError (List Nat) :=
  match s.bytes_hint.exact with
  | some total_bytes =>
    match s.write_buffer (List.replicate total_bytes 0) with
    | Except.ok out => Except.ok out.1
    | Except.error e => Except.error e
  | none => stream_into_vec_with_unknown_size s

/-- C9 (amended): the fresh flag is cleared by the first poll of a stream
that is not already closed, and both whole-stream consumers, write_buffer and
into_vec, refuse a non-fresh stream with the error message
stream already iterated.  (On an already closed stream, such as
ChunkStream::empty, poll_next returns early and leaves the flag untouched,
see the counterexample.) -/
theorem c9_non_fresh_refused (s t : ChunkStream) (buffer : List Nat)
    (hs : s.is_closed = false) (ht : t.is_fresh = false) :
    ((s.poll_next).1).is_fresh = false ∧
    t.write_buffer buffer
      = Except.error (CondowError.new_other "stream already iterated") ∧
    t.into_vec = Except.error (CondowError.new_other "stream already iterated") := by
  refine ⟨?_, ?_, ?_⟩
  · cases hq : s.queue with
    | nil => simp [ChunkStream.poll_next, hs, hq]
    | cons item rest =>
      cases item with
      | ok chunk => simp [ChunkStream.poll_next, hs, hq]
      | error err => simp [ChunkStream.poll_next, hs, hq]
  · simp [ChunkStream.write_buffer, ht]
  · cases hex : t.bytes_hint.exact with
    | none => simp [ChunkStream.into_vec, hex, stream_into_vec_with_unknown_size, ht]
    | some total => simp [ChunkStream.into_vec, hex, ChunkStream.write_buffer, ht]

/-- Witness for C9 at concrete inputs: polling a fresh open stream clears the
flag, and a non-fresh stream refuses write_buffer and into_vec. -/
theorem c9_non_fresh_refused_witness :
    (((ChunkStream.new (BytesHint.mk 0 none) []).poll_next).1).is_fresh = false ∧
    (ChunkStream.mk (BytesHint.mk 0 none) [] false false).write_buffer [0]
      = Except.error (CondowError.new_other "stream already iterated") ∧
    (ChunkStream.mk (BytesHint.mk 0 none) [] false false).into_vec
      = Except.error (CondowError.new_other "stream already iterated") :=
  c9_non_fresh_refused (ChunkStream.new (BytesHint.mk 0 none) [])
    (ChunkStream.mk (BytesHint.mk 0 none) [] false false) [0] (by decide) (by decide)

/-- Counterexample for C9 as stated: the first call to poll_next on the
already closed stream ChunkStream::empty returns early and does not clear the
fresh flag, so the flag does not become false on the first poll. -/
theorem c9_counterexample :
    ((ChunkStream.empty.poll_next).1).is_fresh = true := by decide

theorem writeInto_length (buffer : List Nat) (off : Nat) (bytes : List Nat)
    (h : off + bytes.length ≤ buffer.length) :
    (writeInto buffer off bytes).length = buffer.length := by
  simp [writeInto]
  omega

theorem writeInto_getElem? (buffer : List Nat) (off : Nat) (bytes : List Nat)
    (h : off + bytes.length ≤ buffer.length) (j : Nat) :
    (writeInto buffer off bytes)[j]?
      = if off ≤ j ∧ j < off + bytes.length then bytes[j - off]? else buffer[j]? := by
  have hlt : (buffer.take off).length = off := by
    simp
    omega
  by_cases h1 : j < off
  · rw [if_neg (by omega)]
    unfold writeInto
    rw [List.append_assoc, List.getElem?_append_left (by omega)]
    rw [List.getElem?_take_of_lt h1]
  · by_cases h2 : j < off + bytes.length
    · rw [if_pos ⟨by omega, h2⟩]
      unfold writeInto
      rw [List.append_assoc, List.getElem?_append_right (by omega)]
      rw [List.getElem?_append_left (by rw [hlt]; omega)]
      rw [hlt]
    · rw [if_neg (by omega)]
      unfold writeInto
      rw [List.append_assoc, List.getElem?_append_right (by omega)]
      rw [List.getElem?_append_right (by simp; omega)]
      rw [List.getElem?_drop]
      congr 1
      simp
      omega

/-- One chunk write step, the fold function of the write_buffer loop. -/
def writeChunkFold (buffer : List Nat) (c : Chunk) : List Nat :=
  writeInto buffer c.range_offset c.bytes

/-- Two chunks whose extents within the downloaded range do not overlap. -/
def ChunkExtentsDisjoint (c d : Chunk) : Prop :=
  c.range_offset + c.bytes.length ≤ d.range_offset ∨
  d.range_offset + d.bytes.length ≤ c.range_offset

instance (c d : Chunk) : Decidable (ChunkExtentsDisjoint c d) := by
  unfold ChunkExtentsDisjoint
  exact inferInstance

theorem writeChunkFold_length (buffer : List Nat) (c : Chunk)
    (h : c.range_offset + c.bytes.length ≤ buffer.length) :
    (writeChunkFold buffer c).length = buffer.length :=
  writeInto_length buffer c.range_offset c.bytes h

theorem writeChunkFold_comm (buffer : List Nat) (c d : Chunk)
    (hc : c.range_offset + c.bytes.length ≤ buffer.length)
    (hd : d.range_offset + d.bytes.length ≤ buffer.length)
    (hcd : ChunkExtentsDisjoint c d) :
    writeChunkFold (writeChunkFold buffer c) d
      = writeChunkFold (writeChunkFold buffer d) c := by
  have hlc := writeChunkFold_length buffer c hc
  have hld := writeChunkFold_length buffer d hd
  apply List.ext_getElem?
  intro j
  unfold writeChunkFold
  rw [writeInto_getElem? _ _ _ (by rw [writeInto_length _ _ _ hc]; exact hd),
    writeInto_getElem? _ _ _ hc,
    writeInto_getElem? _ _ _ (by rw [writeInto_length _ _ _ hd]; exact hc),
    writeInto_getElem? _ _ _ hd]
  rcases hcd with hcd | hcd
  · split_ifs with hin1 hin2 hin2 <;> first | rfl | omega
  · split_ifs with hin1 hin2 hin2 <;> first | rfl | omega

theorem write_buffer_loop_ok :
    ∀ (chunks : List Chunk) (buffer : List Nat) (w : Nat),
      (∀ c ∈ chunks, c.range_offset + c.bytes.length ≤ buffer.length) →
      write_buffer_loop (chunks.map Except.ok) buffer w
        = Except.ok (chunks.foldl writeChunkFold buffer,
            w + (chunks.map Chunk.len).sum)
  | [], buffer, w, _ => by simp [write_buffer_loop]
  | c :: rest, buffer, w, hbound => by
    have hc := hbound c (by simp)
    have hrest : ∀ d ∈ rest,
        d.range_offset + d.bytes.length ≤ (writeChunkFold buffer c).length := by
      intro d hd
      rw [writeChunkFold_length buffer c hc]
      exact hbound d (by simp [hd])
    have ih := write_buffer_loop_ok rest (writeChunkFold buffer c)
      (w + c.bytes.length) hrest
    simp only [List.map_cons, write_buffer_loop]
    rw [if_neg (by omega)]
    rw [show writeInto buffer c.range_offset c.bytes = writeChunkFold buffer c from rfl]
    rw [ih]
    simp [Chunk.len, Nat.add_assoc]

theorem foldl_writeChunkFold_perm (N : Nat) :
    ∀ {l₁ l₂ : List Chunk}, l₁.Perm l₂ →
      (∀ c ∈ l₁, c.range_offset + c.bytes.length ≤ N) →
      (∀ c ∈ l₁, ∀ d ∈ l₁, c = d ∨ ChunkExtentsDisjoint c d) →
      ∀ buffer : List Nat, buffer.length = N →
        l₁.foldl writeChunkFold buffer = l₂.foldl writeChunkFold buffer := by
  intro l₁ l₂ hperm
  induction hperm with
  | nil => intro _ _ _ _; rfl
  | cons x hp ih =>
    intro hbound hdisj buffer hlen
    simp only [List.foldl_cons]
    apply ih
    · intro c hc; exact hbound c (by simp [hc])
    · intro c hc d hd; exact hdisj c (by simp [hc]) d (by simp [hd])
    · rw [writeChunkFold_length buffer x (by rw [hlen]; exact hbound x (by simp))]
      exact hlen
  | swap x y l =>
    intro hbound hdisj buffer hlen
    simp only [List.foldl_cons]
    have hx : x.range_offset + x.bytes.length ≤ buffer.length := by
      rw [hlen]; exact hbound x (by simp)
    have hy : y.range_offset + y.bytes.length ≤ buffer.length := by
      rw [hlen]; exact hbound y (by simp)
    rcases hdisj y (by simp) x (by simp) with heq | hdxy
    · rw [heq]
    · rw [writeChunkFold_comm buffer y x hy hx hdxy]
  | trans hp₁ hp₂ ih₁ ih₂ =>
    intro hbound hdisj buffer hlen
    rw [ih₁ hbound hdisj buffer hlen]
    apply ih₂
    · intro c hc; exact hbound c (hp₁.mem_iff.mpr hc)
    · intro c hc d hd
      exact hdisj c (hp₁.mem_iff.mpr hc) d (hp₁.mem_iff.mpr hd)
    · exact hlen

/-- C8 (amended): for chunks whose extents lie within the buffer and are
pairwise non-overlapping, the final buffer and the returned byte count
produced by write_buffer on a fresh chunk stream are a function of the chunk
multiset only: any two arrival orders of the same chunks give identical
results.  (Without the non-overlap proviso the claim fails: two chunks
addressing the same offset produce order-dependent buffers, see the
counterexample.) -/
theorem c8_write_buffer_order_independent (hint : BytesHint)
    (chunks chunks' : List Chunk) (buffer : List Nat)
    (hperm : chunks.Perm chunks')
    (hbound : ∀ c ∈ chunks, c.range_offset + c.bytes.length ≤ buffer.length)
    (hlower : hint.lower ≤ buffer.length)
    (hdisj : ∀ c ∈ chunks, ∀ d ∈ chunks, c = d ∨ ChunkExtentsDisjoint c d) :
    (ChunkStream.new hint (chunks.map Except.ok)).write_buffer buffer
      = (ChunkStream.new hint (chunks'.map Except.ok)).write_buffer buffer := by
  have hbound' : ∀ c ∈ chunks', c.range_offset + c.bytes.length ≤ buffer.length :=
    fun c hc => hbound c (hperm.mem_iff.mpr hc)
  have h1 := write_buffer_loop_ok chunks buffer 0 hbound
  have h2 := write_buffer_loop_ok chunks' buffer 0 hbound'
  have hfold := foldl_writeChunkFold_perm buffer.length hperm hbound hdisj buffer rfl
  have hsum : (chunks.map Chunk.len).sum = (chunks'.map Chunk.len).sum :=
    (hperm.map Chunk.len).sum_eq
  have hnl : ¬ buffer.length < hint.lower := by omega
  simp [ChunkStream.write_buffer, ChunkStream.new, hnl, h1, h2, hfold, hsum]

/-- Witness for C8 at concrete inputs: two disjoint one-byte chunks written
in either order give the same buffer and count. -/
theorem c8_write_buffer_order_independent_witness :
    (ChunkStream.new (BytesHint.mk 0 (some 2))
        ([Chunk.mk 0 0 0 0 [4] 0, Chunk.mk 1 0 1 1 [9] 0].map Except.ok)).write_buffer
        [0, 0]
      = (ChunkStream.new (BytesHint.mk 0 (some 2))
          ([Chunk.mk 1 0 1 1 [9] 0, Chunk.mk 0 0 0 0 [4] 0].map Except.ok)).write_buffer
          [0, 0] :=
  c8_write_buffer_order_independent (BytesHint.mk 0 (some 2))
    [Chunk.mk 0 0 0 0 [4] 0, Chunk.mk 1 0 1 1 [9] 0]
    [Chunk.mk 1 0 1 1 [9] 0, Chunk.mk 0 0 0 0 [4] 0]
    [0, 0] (by decide) (by decide) (by decide) (by decide)

/-- Counterexample for C8 as stated: two chunks with overlapping extents (both
within the buffer, buffer at least the lower hint bound) written in the two
possible orders leave different final buffers, so write_buffer is not a
function of the chunk set alone. -/
theorem c8_counterexample :
    (ChunkStream.new (BytesHint.mk 0 (some 1))
        [Except.ok (Chunk.mk 0 0 0 0 [1] 0), Except.ok (Chunk.mk 1 0 0 0 [2] 0)]).write_buffer
        [0]
      ≠ (ChunkStream.new (BytesHint.mk 0 (some 1))
          [Except.ok (Chunk.mk 1 0 0 0 [2] 0), Except.ok (Chunk.mk 0 0 0 0 [1] 0)]).write_buffer
          [0]
    ∧ [Chunk.mk 0 0 0 0 [1] 0, Chunk.mk 1 0 0 0 [2] 0].Perm
        [Chunk.mk 1 0 0 0 [2] 0, Chunk.mk 0 0 0 0 [1] 0]
    ∧ (∀ c ∈ [Chunk.mk 0 0 0 0 [1] 0, Chunk.mk 1 0 0 0 [2] 0],
        c.range_offset + c.bytes.length ≤ 1) := by
  refine ⟨by decide, List.Perm.swap _ _ _, by decide⟩

/-- Modelled from the spec: the observability events emitted by the drop
handler of DownloaderContext (the probe trait is not under src); elapsed
durations are omitted. -/
inductive ProbeEvent where
  | panic_detected (msg : String)
  | download_failed
  | download_completed
deriving DecidableEq, Repr

/-- The shared coordination state seen by the drop handler: the live-context
counter and the kill switch flag (armed).  The kill switch is write-once to
true (push_the_button); the counter is decremented by each drop. -/
structure DownloadState where
  counter : Nat
  armed : Bool
deriving DecidableEq, Repr

/-- Translation of the Drop implementation of DownloaderContext in
src/condow_core/src/machinery/download/sequential.rs.  Inputs: the local
completed flag of the context and whether the current thread is panicking at
drop time.  If not completed, the kill switch is armed, a panic_detected
event is emitted when panicking, and the corresponding error is pushed into
the result channel.  Then the counter is decremented, and when it reaches
zero a single terminal event is emitted: download_failed when the kill
switch is armed, download_completed otherwise.  Outputs: the new shared
state, the probe events, and the items pushed into the result channel. -/
def downloader_context_drop (completed panicking : Bool) (g : DownloadState) :
    DownloadState × List ProbeEvent × List ChunkStreamItem :=
  let step :=
    if !completed then
      let evs :=
        if panicking then [ProbeEvent.panic_detected "panic detected in downloader"]
        else []
      let err :=
        if panicking then
          CondowError.new_other "download ended unexpectedly due to a panic"
        else CondowError.new_other "download ended unexpectetly"
      ({ g with armed := true }, evs, [Except.error err])
    else (g, ([] : List ProbeEvent), ([] : List ChunkStreamItem))
  let g2 : DownloadState := { step.1 with counter := step.1.counter - 1 }
  let evs2 :=
    if g2.counter = 0 then
      [if g2.armed then ProbeEvent.download_failed else ProbeEvent.download_completed]
    else []
  (g2, step.2.1 ++ evs2, step.2.2)

/-- C5 (amended): dropping a context with completed false while the thread is
panicking emits a panic_detected event, arms the kill switch and pushes the
error with message download ended unexpectedly due to a panic; dropping with
completed false when not panicking pushes the error whose message is the
literal (misspelled) source string download ended unexpectetly.  (The claim
states the message as download ended unexpectedly; the source spells it
unexpectetly, see the counterexample.) -/
theorem c5_drop_panic_detection (g : DownloadState) :
    (downloader_context_drop false true g).2.2
        = [Except.error
            (CondowError.new_other "download ended unexpectedly due to a panic")] ∧
    ProbeEvent.panic_detected "panic detected in downloader"
        ∈ (downloader_context_drop false true g).2.1 ∧
    (downloader_context_drop false true g).1.armed = true ∧
    (downloader_context_drop false false g).2.2
        = [Except.error (CondowError.new_other "download ended unexpectetly")] ∧
    (downloader_context_drop false false g).1.armed = true := by
  refine ⟨rfl, ?_, rfl, rfl, rfl⟩
  simp [downloader_context_drop]

/-- Counterexample for C5 as stated: the error pushed by a non-panicking
incomplete drop is not the message download ended unexpectedly; the source
string is misspelled as unexpectetly. -/
theorem c5_counterexample :
    (downloader_context_drop false false (DownloadState.mk 2 false)).2.2
      ≠ [Except.error (CondowError.new_other "download ended unexpectedly")] := by
  decide

/-- The probe events of each drop, in drop order: each context drop consumes
the running shared state. -/
def run_drops (g : DownloadState) : List (Bool × Bool) → List (List ProbeEvent)
  | [] => []
  | (completed, panicking) :: rest =>
    (downloader_context_drop completed panicking g).2.1 ::
      run_drops (downloader_context_drop completed panicking g).1 rest

/-- The terminal events (download_failed or download_completed) of an event
list. -/
def terminalEvents (evs : List ProbeEvent) : List ProbeEvent :=
  evs.filter fun e =>
    match e with
    | ProbeEvent.download_failed => true
    | ProbeEvent.download_completed => true
    | ProbeEvent.panic_detected _ => false

theorem run_drops_length (g : DownloadState) :
    ∀ ctxs : List (Bool × Bool), (run_drops g ctxs).length = ctxs.length
  | [] => rfl
  | (c, p) :: rest => by
    simp [run_drops, run_drops_length _ rest]

theorem drop_counter (completed panicking : Bool) (g : DownloadState) :
    (downloader_context_drop completed panicking g).1.counter = g.counter - 1 := by
  cases completed <;> simp [downloader_context_drop]

theorem drop_armed (completed panicking : Bool) (g : DownloadState) :
    (downloader_context_drop completed panicking g).1.armed
      = (g.armed || !completed) := by
  cases completed <;> simp [downloader_context_drop]

theorem drop_terminal (completed panicking : Bool) (g : DownloadState) :
    terminalEvents (downloader_context_drop completed panicking g).2.1
      = if g.counter - 1 = 0 then
          [if g.armed || !completed then ProbeEvent.download_failed
           else ProbeEvent.download_completed]
        else [] := by
  cases completed <;> cases panicking <;> cases hg : g.armed <;>
    by_cases hc : g.counter - 1 = 0 <;>
      simp [downloader_context_drop, terminalEvents, hc, hg]

/-- C2: in a download with n live contexts (counter equal to the number of
contexts still to be dropped), the drops emit exactly one terminal event
among them: every drop except the last emits none, and the last drop (the
one that takes the counter to zero) emits exactly one, which is
download_failed exactly when the kill switch is armed at that moment, i.e.
when it was armed before the drops or some dropped context had not completed
(each such drop arms the switch before the terminal check); otherwise it is
download_completed. -/
theorem c2_terminal_event_once (g : DownloadState) (ctxs : List (Bool × Bool))
    (i : Nat) (hcount : g.counter = ctxs.length) (hi : i < ctxs.length) :
    terminalEvents ((run_drops g ctxs).getD i [])
      = if i + 1 = ctxs.length then
          [if g.armed || ctxs.any (fun cp => !cp.1) then ProbeEvent.download_failed
           else ProbeEvent.download_completed]
        else [] := by
  induction ctxs generalizing g i with
  | nil => exact absurd hi (by simp)
  | cons x rest ih =>
    obtain ⟨c, p⟩ := x
    cases i with
    | zero =>
      show terminalEvents (downloader_context_drop c p g).2.1 = _
      rw [drop_terminal]
      cases hrest : rest with
      | nil =>
        subst hrest
        have hc1 : g.counter - 1 = 0 := by rw [hcount]; rfl
        have hlen : 0 + 1 = ((c, p) :: ([] : List (Bool × Bool))).length := by simp
        rw [if_pos hc1, if_pos hlen]
        simp
      | cons y ys =>
        subst hrest
        have hc1 : ¬ g.counter - 1 = 0 := by rw [hcount]; simp
        have hlen : ¬ 0 + 1 = ((c, p) :: y :: ys).length := by
          simp only [List.length_cons]
          omega
        rw [if_neg hc1, if_neg hlen]
    | succ m =>
      have hm : m < rest.length := by
        simp only [List.length_cons] at hi
        omega
      show terminalEvents
          ((run_drops (downloader_context_drop c p g).1 rest).getD m []) = _
      rw [ih (downloader_context_drop c p g).1 m
        (by rw [drop_counter, hcount]; simp) hm]
      rw [drop_armed]
      by_cases hml : m + 1 = rest.length
      · have h1 : m + 1 + 1 = ((c, p) :: rest).length := by
          simp only [List.length_cons]
          omega
        rw [if_pos hml, if_pos h1]
        cases g.armed <;> cases c <;> simp
      · have h1 : ¬ m + 1 + 1 = ((c, p) :: rest).length := by
          simp only [List.length_cons]
          omega
        rw [if_neg hml, if_neg h1]

/-- Witness for C2 at a concrete input: two contexts, the second one
incomplete; the first drop emits no terminal event and the second emits
exactly download_failed. -/
theorem c2_terminal_event_once_witness :
    terminalEvents ((run_drops (DownloadState.mk 2 false)
        [(true, false), (false, false)]).getD 1 [])
      = if 1 + 1 = 2 then
          [if false || [(true, false), (false, false)].any (fun cp => !cp.1) then
            ProbeEvent.download_failed
           else ProbeEvent.download_completed]
        else [] :=
  c2_terminal_event_once (DownloadState.mk 2 false)
    [(true, false), (false, false)] 1 (by decide) (by decide)

/-- The events of the dispatcher enqueue loop: a queue_full report (which in
the source is immediately followed by the buffers_full_delay_ms sleep) or an
enqueue attempt on a worker. -/
inductive DispatchEvent where
  | queue_full
  | enqueue_attempt (worker : Nat)
deriving DecidableEq, Repr

/-- Translation of the inner loop of ConcurrentDownloader::download in
src/condow_core/src/machinery/download/concurrent.rs for one part request:
attempt starts at 1; each iteration first reports queue_full (and sleeps)
when attempt is a multiple of the number of downloaders, then tries to
enqueue on worker (counter + attempt) mod n_downloaders; a full queue
(full w = true, modelling enqueue returning Ok(Some)) advances attempt and
loops, a successful enqueue (Ok(None)) breaks.  Queue occupancy is taken as
constant over the loop and the worker-gone branch (Err) is not taken.  fuel
bounds the iterations. -/
def dispatch_loop (n_downloaders counter : Nat) (full : Nat → Bool) :
    Nat → Nat → List DispatchEvent
  | 0, _attempt => []
  | fuel + 1, attempt =>
    let pre :=
      if attempt % n_downloaders = 0 then [DispatchEvent.queue_full] else []
    let idx := counter + attempt
    let w := idx % n_downloaders
    if full w then
      pre ++ [DispatchEvent.enqueue_attempt w]
        ++ dispatch_loop n_downloaders counter full fuel (attempt + 1)
    else
      pre ++ [DispatchEvent.enqueue_attempt w]

theorem dispatch_loop_all_full (n counter : Nat) (full : Nat → Bool)
    (hfull : ∀ w, full w = true) :
    ∀ (k a fuel : Nat), a + k = n → 1 ≤ a → k + 1 ≤ fuel →
      ∃ rest, dispatch_loop n counter full fuel a
        = ((List.range k).map fun i =>
            DispatchEvent.enqueue_attempt ((counter + (a + i)) % n))
          ++ DispatchEvent.queue_full :: rest
  | 0, a, fuel, hk, ha, hfuel => by
    obtain ⟨f, rfl⟩ : ∃ f, fuel = f + 1 := ⟨fuel - 1, by omega⟩
    have han : a = n := by omega
    have hmod : a % n = 0 := by
      rw [han]
      exact Nat.mod_self n
    refine ⟨DispatchEvent.enqueue_attempt ((counter + a) % n) ::
      dispatch_loop n counter full f (a + 1), ?_⟩
    simp [dispatch_loop, hmod, hfull ((counter + a) % n)]
  | k + 1, a, fuel, hk, ha, hfuel => by
    obtain ⟨f, rfl⟩ : ∃ f, fuel = f + 1 := ⟨fuel - 1, by omega⟩
    have hmod : ¬ a % n = 0 := by
      have han : a < n := by omega
      rw [Nat.mod_eq_of_lt han]
      omega
    obtain ⟨rest, hrest⟩ := dispatch_loop_all_full n counter full hfull
      k (a + 1) f (by omega) (by omega) (by omega)
    refine ⟨rest, ?_⟩
    simp only [dispatch_loop, hmod, if_false, hfull ((counter + a) % n), if_true]
    rw [hrest]
    rw [List.range_succ_eq_map]
    simp only [List.map_cons, List.map_map]
    have hcong : ((List.range k).map fun i =>
          DispatchEvent.enqueue_attempt ((counter + (a + 1 + i)) % n))
        = (List.range k).map
            ((fun i => DispatchEvent.enqueue_attempt ((counter + (a + i)) % n))
              ∘ Nat.succ) := by
      apply List.map_congr_left
      intro i _
      simp [Nat.succ_eq_add_one]
      congr 1
      omega
    rw [hcong]
    simp

/-- C6 (amended): for a part request facing all-full worker queues, the
dispatcher reports queue_full (and sleeps buffers_full_delay_ms) for the
first time when the attempt count reaches n_downloaders, which is after
enqueue attempts on only n_downloaders - 1 distinct workers, i.e. before
every worker has been tried once; with a single worker it reports queue_full
before any enqueue attempt (see the counterexample).  The first events of
the loop trace are exactly the n - 1 attempts on workers
(counter + 1) mod n, ..., (counter + n - 1) mod n followed by queue_full. -/
theorem c6_queue_full_after_cycle_minus_one (n counter fuel : Nat)
    (full : Nat → Bool) (hn : 1 ≤ n) (hfuel : n ≤ fuel)
    (hfull : ∀ w, full w = true) :
    ∃ rest, dispatch_loop n counter full fuel 1
      = ((List.range (n - 1)).map fun i =>
          DispatchEvent.enqueue_attempt ((counter + (1 + i)) % n))
        ++ DispatchEvent.queue_full :: rest := by
  exact dispatch_loop_all_full n counter full hfull (n - 1) 1 fuel
    (by omega) (by omega) (by omega)

/-- Witness for C6 at a concrete input: three workers, all queues full; the
trace begins with attempts on workers 1 and 2 and then queue_full. -/
theorem c6_queue_full_after_cycle_minus_one_witness :
    ∃ rest, dispatch_loop 3 0 (fun _ => true) 3 1
      = ((List.range (3 - 1)).map fun i =>
          DispatchEvent.enqueue_attempt ((0 + (1 + i)) % 3))
        ++ DispatchEvent.queue_full :: rest :=
  c6_queue_full_after_cycle_minus_one 3 0 3 (fun _ => true)
    (by decide) (by decide) (fun _ => rfl)

/-- The claim as stated: every queue_full report is preceded by at least one
enqueue attempt on each of the n workers. -/
def noPrematureQueueFull (n : Nat) (tr : List DispatchEvent) : Prop :=
  ∀ pre post, tr = pre ++ DispatchEvent.queue_full :: post →
    ∀ w, w < n → DispatchEvent.enqueue_attempt w ∈ pre

/-- Counterexample for C6 as stated: with one worker whose queue is not even
full, the first loop iteration reports queue_full (attempt 1 is a multiple
of 1) before any enqueue attempt, so queue_full is reported without a full
cycle of failed enqueue attempts. -/
theorem c6_counterexample :
    ¬ noPrematureQueueFull 1 (dispatch_loop 1 0 (fun _ => false) 1 1) := by
  intro h
  have h0 := h [] [DispatchEvent.enqueue_attempt 0] (by rfl) 0 (by decide)
  simp at h0

end Condow
